import Mathlib

/-!
Verification of the macOS `log stream` ingester core (`main.go`).

The embedding models, directly from the source:
* `decode` — the incremental stream decoder (globals `buf`/`first`,
  3-byte preamble strip, split on the separator `"\n},{\n"`, wrap and
  JSON-compact every fragment but the last);
* `run` — the supervisor loop (launch `log stream`, decode, enrich,
  `WriteBatchContext`, restart on decode error, return on
  `context.Canceled`, `lg.Fatal` on `StdoutPipe` failure).

An `io.Reader` is modelled as the list of results of successive `Read`
calls: each element is the returned byte slice together with an optional
error code (`none` = nil error; code `0` plays the role of `io.EOF`,
which a reader yields forever once exhausted).  `time.Sleep` calls are
elided (they do not affect the byte-level behaviour).
-/

namespace MacOSLog

abbrev Byte := Char
abbrev Bytes := List Byte

/-- The record separator `[]byte("\n},{\n")` used by `decode`. -/
def sep : Bytes := ['\n', '\x7d', ',', '\x7b', '\n']

/-- Concatenation of a list of byte slices. -/
def catList : List Bytes → Bytes
  | [] => []
  | b :: t => b ++ catList t

/-- First occurrence of `sep` in `s`: returns the part before and the
part after the occurrence (the model of `bytes.Index`-driven splitting). -/
def findSep : Bytes → Option (Bytes × Bytes)
  | [] => none
  | c :: t =>
    if sep.isPrefixOf (c :: t) then some ([], (c :: t).drop sep.length)
    else (findSep t).map (fun pq => (c :: pq.1, pq.2))

/-- `bytes.Split(s, sep)` modelled with explicit fuel (each found
occurrence removes `sep.length ≥ 1` bytes, so `s.length + 1` steps
always suffice). -/
def splitSepF : Nat → Bytes → List Bytes
  | 0, s => [s]
  | fuel + 1, s =>
    match findSep s with
    | none => [s]
    | some (p, q) => p :: splitSepF fuel q

/-- `bytes.Split(s, []byte("\n},{\n"))`. -/
def splitSep (s : Bytes) : List Bytes := splitSepF (s.length + 1) s

/-- Joining fragments back with the separator (used to state that
splitting loses no bytes). -/
def sepJoin : List Bytes → Bytes
  | [] => []
  | [x] => x
  | x :: y :: t => x ++ sep ++ sepJoin (y :: t)

/-! ### `encoding/json.Compact`

`json.Compact(&o, d)` validates that `d` is a single JSON value
(optionally surrounded by whitespace) and writes it back with the
insignificant whitespace elided, leaving all tokens verbatim.  The
grammar below follows the Go scanner: objects, arrays, strings with the
escape set `\" \\ \/ \b \f \n \r \t \uXXXX` and no raw control
characters, numbers `-?(0|[1-9][0-9]*)(.[0-9]+)?([eE][+-]?[0-9]+)?`,
and the literals `true`/`false`/`null`.  The parser returns the
compacted output together with the unconsumed rest. -/

def isJsonWs (c : Byte) : Bool :=
  c = ' ' || c = '\t' || c = '\n' || c = '\r'

def skipWs : Bytes → Bytes
  | [] => []
  | c :: t => if isJsonWs c then skipWs t else c :: t

def isHexDigit (c : Byte) : Bool :=
  c.isDigit || ('a' ≤ c && c ≤ 'f') || ('A' ≤ c && c ≤ 'F')

/-- Scan a JSON string body (the opening quote already consumed);
returns the scanned characters including the closing quote. -/
def scanStringBody : Bytes → Option (Bytes × Bytes)
  | [] => none
  | c :: t =>
    if c = '"' then some (['"'], t)
    else if c = '\\' then
      match t with
      | [] => none
      | e :: t' =>
        if e = '"' || e = '\\' || e = '/' || e = 'b' || e = 'f' || e = 'n'
            || e = 'r' || e = 't' then
          (scanStringBody t').map (fun or => ('\\' :: e :: or.1, or.2))
        else if e = 'u' then
          match t' with
          | h1 :: h2 :: h3 :: h4 :: t'' =>
            if isHexDigit h1 && isHexDigit h2 && isHexDigit h3 && isHexDigit h4
            then (scanStringBody t'').map
              (fun or => ('\\' :: 'u' :: h1 :: h2 :: h3 :: h4 :: or.1, or.2))
            else none
          | _ => none
        else none
    else if c.toNat < 0x20 then none
    else (scanStringBody t).map (fun or => (c :: or.1, or.2))

/-- Longest leading run of decimal digits. -/
def scanDigits : Bytes → Bytes × Bytes
  | [] => ([], [])
  | c :: t =>
    if c.isDigit then
      let dr := scanDigits t
      (c :: dr.1, dr.2)
    else ([], c :: t)

/-- Scan a JSON number starting at a digit or `-`. -/
def scanNumber (s : Bytes) : Option (Bytes × Bytes) := do
  let (neg, s1) := match s with
    | '-' :: t => (['-'], t)
    | _ => (([] : Bytes), s)
  let (ip, s2) ← match s1 with
    | '0' :: t => some ((['0'] : Bytes), t)
    | c :: t =>
      if c.isDigit then
        let dr := scanDigits t
        some (c :: dr.1, dr.2)
      else none
    | [] => none
  let (fp, s3) ← match s2 with
    | '.' :: t =>
      let dr := scanDigits t
      match dr.1 with
      | [] => none
      | _ => some ('.' :: dr.1, dr.2)
    | _ => some (([] : Bytes), s2)
  let (ep, s4) ← match s3 with
    | c :: t =>
      if c = 'e' || c = 'E' then
        let (sg, t1) := match t with
          | '+' :: t' => (['+'], t')
          | '-' :: t' => (['-'], t')
          | _ => (([] : Bytes), t)
        let dr := scanDigits t1
        match dr.1 with
        | [] => none
        | _ => some (c :: (sg ++ dr.1), dr.2)
      else some (([] : Bytes), s3)
    | [] => some (([] : Bytes), s3)
  some (neg ++ ip ++ fp ++ ep, s4)

mutual

/-- Parse one JSON value, emitting its compacted form. -/
def parseVal : Nat → Bytes → Option (Bytes × Bytes)
  | 0, _ => none
  | fuel + 1, s =>
    match skipWs s with
    | [] => none
    | c :: t =>
      if c = '\x7b' then parseObj fuel t
      else if c = '[' then parseArr fuel t
      else if c = '"' then (scanStringBody t).map (fun or => ('"' :: or.1, or.2))
      else if c = 't' then
        match t with
        | 'r' :: 'u' :: 'e' :: r => some (['t', 'r', 'u', 'e'], r)
        | _ => none
      else if c = 'f' then
        match t with
        | 'a' :: 'l' :: 's' :: 'e' :: r => some (['f', 'a', 'l', 's', 'e'], r)
        | _ => none
      else if c = 'n' then
        match t with
        | 'u' :: 'l' :: 'l' :: r => some (['n', 'u', 'l', 'l'], r)
        | _ => none
      else if c = '-' || c.isDigit then scanNumber (c :: t)
      else none

/-- Parse the inside of an object, the `{` already consumed. -/
def parseObj : Nat → Bytes → Option (Bytes × Bytes)
  | 0, _ => none
  | fuel + 1, s =>
    match skipWs s with
    | '\x7d' :: r => some (['\x7b', '\x7d'], r)
    | s' => (parseMembers fuel s').map (fun or => ('\x7b' :: or.1, or.2))

/-- Parse `"key": value (, "key": value)* }`, emitting the compacted
members including the closing `}`. -/
def parseMembers : Nat → Bytes → Option (Bytes × Bytes)
  | 0, _ => none
  | fuel + 1, s =>
    match skipWs s with
    | '"' :: t =>
      match scanStringBody t with
      | none => none
      | some (k, r) =>
        match skipWs r with
        | ':' :: r' =>
          match parseVal fuel r' with
          | none => none
          | some (v, r'') =>
            match skipWs r'' with
            | ',' :: r3 =>
              (parseMembers fuel r3).map
                (fun or => ('"' :: k ++ ':' :: v ++ ',' :: or.1, or.2))
            | '\x7d' :: r3 => some ('"' :: k ++ ':' :: v ++ ['\x7d'], r3)
            | _ => none
        | _ => none
    | _ => none

/-- Parse the inside of an array, the `[` already consumed. -/
def parseArr : Nat → Bytes → Option (Bytes × Bytes)
  | 0, _ => none
  | fuel + 1, s =>
    match skipWs s with
    | ']' :: r => some (['[', ']'], r)
    | s' => (parseElems fuel s').map (fun or => ('[' :: or.1, or.2))

/-- Parse `value (, value)* ]`, emitting the compacted elements
including the closing `]`. -/
def parseElems : Nat → Bytes → Option (Bytes × Bytes)
  | 0, _ => none
  | fuel + 1, s =>
    match parseVal fuel s with
    | none => none
    | some (v, r) =>
      match skipWs r with
      | ',' :: r' => (parseElems fuel r').map (fun or => (v ++ ',' :: or.1, or.2))
      | ']' :: r' => some (v ++ [']'], r')
      | _ => none

end

/-- `json.Compact`: `none` models a non-nil error. -/
def jsonCompact (s : Bytes) : Option Bytes :=
  match parseVal (4 * s.length + 4) s with
  | none => none
  | some (o, r) => if skipWs r = [] then some o else none

/-! ### The decoder (`decode`, globals `buf` and `first`)

A reader is the list of results of the successive `r.Read(b)` calls:
each entry carries the returned bytes (`b[:n]`, at most 1024 in the
original, which never matters for the byte-level behaviour) and the
returned error (`none` = nil).  Reading an exhausted reader yields
`(nil, io.EOF)`; error code `0` stands for `io.EOF`. -/

abbrev Chunk := Bytes × Option Nat
abbrev Reader := List Chunk

/-- Bytes delivered by a reader (error-carrying reads deliver none,
matching the code, which discards `b[:n]` whenever `err != nil`). -/
def bytesOf (r : Reader) : Bytes :=
  catList (r.map Prod.fst)

/-- All reads in `r` succeed (nil error). -/
def allClean (r : Reader) : Prop := ∀ c ∈ r, c.2 = (none : Option Nat)

/-- A decode error: a failed `r.Read` (with its code; `0` = `io.EOF`)
or a `json.Compact` failure. -/
inductive DErr where
  | readE (code : Nat)
  | compactE
  deriving DecidableEq, Repr

/-- The decoder's persistent state: the package-level globals
`var buf []byte` and `var first = true`. -/
structure DecoderState where
  buf : Bytes
  first : Bool
  deriving DecidableEq, Repr

/-- The `first` loop of `decode`: read until at least 3 bytes have
accumulated, then pop the leading `[{\n` preamble.  On a read error the
accumulated buffer is returned as-is (the global keeps it). -/
def preambleLoop : Bytes → Reader → Option Nat × Bytes × Reader
  | buf, [] => (some 0, buf, [])
  | buf, (_, some e) :: rest => (some e, buf, rest)
  | buf, (bs, none) :: rest =>
    let buf' := buf ++ bs
    if 3 ≤ buf'.length then (none, buf'.drop 3, rest)
    else preambleLoop buf' rest

/-- Wrap a split fragment back into an object and compact it:
`d := append(append([]byte("\x7b"), e[i]...), '\x7d')` then
`json.Compact(&o, d)`. -/
def compactRecord (frag : Bytes) : Option Bytes :=
  jsonCompact ('\x7b' :: (frag ++ ['\x7d']))

/-- The `for i := 0; i < len(e)-1; i++` loop: compact each complete
fragment in order; the first failure aborts with the compaction error. -/
def compactFrags : List Bytes → Except DErr (List Bytes)
  | [] => .ok []
  | f :: fs =>
    match compactRecord f with
    | none => .error .compactE
    | some d =>
      match compactFrags fs with
      | .error e => .error e
      | .ok ds => .ok (d :: ds)

instance {ε α : Type} [DecidableEq ε] [DecidableEq α] : DecidableEq (Except ε α)
  | .error a, .error b =>
    if h : a = b then .isTrue (congrArg Except.error h)
    else .isFalse (fun he => h (by injection he))
  | .error _, .ok _ => .isFalse (fun he => Except.noConfusion he)
  | .ok _, .error _ => .isFalse (fun he => Except.noConfusion he)
  | .ok a, .ok b =>
    if h : a = b then .isTrue (congrArg Except.ok h)
    else .isFalse (fun he => h (by injection he))

/-- Result of one `decode` call: the returned value (entry payloads or
the error), plus the final global buffer and the remaining reader. -/
structure RRes where
  res : Except DErr (List Bytes)
  buf : Bytes
  rdr : Reader
  deriving DecidableEq, Repr

/-- The record-extraction loop of `decode`: read, append, split on
`sep`; with no separator read again; otherwise compact all fragments
but the last and retain the last as the new buffer. -/
def recordLoop : Bytes → Reader → RRes
  | buf, [] => ⟨.error (.readE 0), buf, []⟩
  | buf, (_, some e) :: rest => ⟨.error (.readE e), buf, rest⟩
  | buf, (bs, none) :: rest =>
    let buf' := buf ++ bs
    let e := splitSep buf'
    if e.length ≤ 1 then recordLoop buf' rest
    else
      match compactFrags e.dropLast with
      | .error er => ⟨.error er, buf', rest⟩
      | .ok ents => ⟨.ok ents, e.getLastD [], rest⟩

/-- One `decode(r)` call, with the globals threaded explicitly. -/
structure DOut where
  res : Except DErr (List Bytes)
  st : DecoderState
  rdr : Reader
  deriving DecidableEq, Repr

def decode (st : DecoderState) (rdr : Reader) : DOut :=
  if st.first then
    match preambleLoop st.buf rdr with
    | (some e, buf', rdr') => ⟨.error (.readE e), ⟨buf', true⟩, rdr'⟩
    | (none, buf', rdr') =>
      let r := recordLoop buf' rdr'
      ⟨r.res, ⟨r.buf, false⟩, r.rdr⟩
  else
    let r := recordLoop st.buf rdr
    ⟨r.res, ⟨r.buf, false⟩, r.rdr⟩

/-- The supervisor's inner decode loop, observed through the sequence
of records it produces: call `decode` repeatedly until the first error
(fuelled; `drive` below supplies always-sufficient fuel). -/
structure DriveRes where
  recs : List Bytes
  st : DecoderState
  rdr : Reader
  err : Option DErr
  deriving DecidableEq, Repr

def driveF : Nat → DecoderState → Reader → DriveRes
  | 0, st, rdr => ⟨[], st, rdr, none⟩
  | f + 1, st, rdr =>
    let d := decode st rdr
    match d.res with
    | .error e => ⟨[], d.st, d.rdr, some e⟩
    | .ok ents =>
      let r := driveF f d.st d.rdr
      ⟨ents ++ r.recs, r.st, r.rdr, r.err⟩

/-- Repeated `decode` calls on one producer stream, accumulating the
records of every successful call, until the first decode error (which
in `run` breaks the inner loop). -/
def drive (st : DecoderState) (rdr : Reader) : DriveRes :=
  driveF (rdr.length + 1) st rdr

/-! ### The supervisor loop (`run`)

`run` is driven by its environment: the outcomes of launching the
producer process (`cmd.StdoutPipe` / `cmd.Start`), the bytes its stdout
pipe yields (a `Reader`), and the outcomes of
`igst.WriteBatchContext`.  The model consumes a finite trace of these
outcomes and records the externally observable steps.  The enrichment
loop (`v.SRC = src; v.TS = entry.Now(); v.Tag = tag`) stamps metadata
fields only and leaves every payload untouched, so records are carried
as payloads.  A trace that runs out is reported as `outOfTrace` (the
real loop would simply keep running). -/

/-- Environment outcome of one outer-loop launch attempt:
`cmd.StdoutPipe()` fails, `cmd.Start()` fails, or the process starts
and its stdout delivers `rdr`. -/
inductive LaunchSpec where
  | pipeFail
  | startFail
  | ok (rdr : Reader)
  deriving DecidableEq, Repr

/-- Environment outcome of one `igst.WriteBatchContext` call. -/
inductive WriteRes where
  | wok
  | canceled
  | werr
  deriving DecidableEq, Repr

/-- Observable steps of `run`. -/
inductive Act where
  | launchA
  | decodeCallA (st : DecoderState)
  | submitA (ents : List Bytes)
  | logA
  | sleepA
  | killA
  | fatalA
  deriving DecidableEq, Repr

/-- How the inner (`for { decode ... }`) loop ends. -/
inductive IExit where
  | decodeErr (ws : List WriteRes)
  | canceled (ws : List WriteRes)
  | starved
  deriving DecidableEq, Repr

structure IRes where
  acts : List Act
  st : DecoderState
  exit : IExit
  deriving DecidableEq, Repr

/-- The inner loop of `run` (fuelled): `decode`, enrich, submit; a
decode error breaks out (to kill + restart); `context.Canceled` from
the submit returns from `run`; any other submit error is logged and
the loop continues. -/
def runInnerF : Nat → DecoderState → Reader → List WriteRes → IRes
  | 0, st, _, _ => ⟨[], st, .starved⟩
  | f + 1, st, rdr, ws =>
    let d := decode st rdr
    match d.res with
    | .error _ => ⟨[.decodeCallA st, .logA], d.st, .decodeErr ws⟩
    | .ok ents =>
      match ws with
      | [] => ⟨[.decodeCallA st], d.st, .starved⟩
      | .wok :: ws' =>
        let r := runInnerF f d.st d.rdr ws'
        ⟨.decodeCallA st :: .submitA ents :: r.acts, r.st, r.exit⟩
      | .canceled :: ws' => ⟨[.decodeCallA st, .submitA ents], d.st, .canceled ws'⟩
      | .werr :: ws' =>
        let r := runInnerF f d.st d.rdr ws'
        ⟨.decodeCallA st :: .submitA ents :: .logA :: r.acts, r.st, r.exit⟩

def runInner (st : DecoderState) (rdr : Reader) (ws : List WriteRes) : IRes :=
  runInnerF (rdr.length + 1) st rdr ws

/-- Overall outcome of a finite trace of the `run` loop. -/
inductive Outcome where
  | returned
  | fatal
  | outOfTrace
  deriving DecidableEq, Repr

structure ORes where
  acts : List Act
  outcome : Outcome
  st : DecoderState
  deriving DecidableEq, Repr

/-- The outer loop of `run`: launch `log stream --style=json`;
`lg.Fatal` if the stdout pipe cannot be obtained; on `cmd.Start`
failure log, sleep `PERIOD`, and loop; otherwise run the inner loop,
and on a decode error kill the process and loop.  A cancelled submit
returns from `run` — without killing the process. -/
def runOuter : List LaunchSpec → DecoderState → List WriteRes → ORes
  | [], st, _ => ⟨[], .outOfTrace, st⟩
  | .pipeFail :: _, st, _ => ⟨[.fatalA], .fatal, st⟩
  | .startFail :: ls, st, ws =>
    let r := runOuter ls st ws
    ⟨.launchA :: .logA :: .sleepA :: r.acts, r.outcome, r.st⟩
  | .ok rdr :: ls, st, ws =>
    let i := runInner st rdr ws
    match i.exit with
    | .decodeErr ws' =>
      let r := runOuter ls i.st ws'
      ⟨.launchA :: (i.acts ++ .killA :: r.acts), r.outcome, r.st⟩
    | .canceled _ => ⟨.launchA :: i.acts, .returned, i.st⟩
    | .starved => ⟨.launchA :: i.acts, .outOfTrace, i.st⟩

/-! ### Concrete streams used by the claim theorems -/

def str (s : String) : Bytes := s.toList

def rdrC1a : Reader :=
  [(str "[\x7b\n", none), (str "\"a\":1\n\x7d,\x7b\n\"x\":", none)]

def rdrC1b : Reader := [(str "[\x7b\n\"b\":2\n\x7d,\x7b\nz", none)]

def actsC1 : List Act :=
  [.decodeCallA ⟨[], true⟩, .submitA [str "\x7b\"a\":1\x7d"],
   .decodeCallA ⟨str "\"x\":", false⟩, .logA]

def inputC2 : Bytes := str "[\x7b\n\"a\":1\n\x7d,\x7b\n\"b\":2\n\x7d]"

def rdrC3 : Reader :=
  [(str "[\x7b\n", none), (str "\"a\":1\n\x7d,\x7b\nz", none)]

def rdrC4 : Reader := [(str "[\x7b\nq", none)]

def inputC6 : Bytes := str "[\x7b\n\"a\":1\n\x7d,\x7b\nzz"

def mkReader (cs : List Bytes) : Reader := cs.map (fun c => (c, none))

/-! ### Theorems -/

theorem catList_append (a b : List Bytes) :
    catList (a ++ b) = catList a ++ catList b := by
  induction a with
  | nil => rfl
  | cons x t ih => simp [catList, ih]

theorem isPrefixOf_eq_true_iff (a : Bytes) : ∀ b : Bytes,
    a.isPrefixOf b = true ↔ ∃ t, b = a ++ t := by
  induction a with
  | nil => intro b; simp [List.isPrefixOf]
  | cons x xs ih =>
    intro b
    cases b with
    | nil => simp [List.isPrefixOf]
    | cons y ys =>
      simp only [List.isPrefixOf, Bool.and_eq_true, beq_iff_eq, ih ys]
      constructor
      · rintro ⟨rfl, t, rfl⟩; exact ⟨t, rfl⟩
      · rintro ⟨t, h⟩
        cases h
        exact ⟨rfl, t, rfl⟩

theorem findSep_some (s : Bytes) :
    ∀ p q, findSep s = some (p, q) → s = p ++ sep ++ q := by
  induction s with
  | nil => intro p q h; simp [findSep] at h
  | cons c t ih =>
    intro p q h
    by_cases hp : sep.isPrefixOf (c :: t)
    · rw [findSep, if_pos hp] at h
      obtain ⟨u, hu⟩ := (isPrefixOf_eq_true_iff sep (c :: t)).mp hp
      injection h with h1
      injection h1 with hp1 hq1
      subst hp1
      rw [hu, List.drop_append_of_le_length (le_refl _), List.drop_length] at hq1
      simpa [hu, hq1]
    · rw [findSep, if_neg hp] at h
      cases hfs : findSep t with
      | none => rw [hfs] at h; simp at h
      | some pq =>
        rw [hfs] at h
        simp only [Option.map_some'] at h
        injection h with h1
        injection h1 with hp1 hq1
        have := ih pq.1 pq.2 (by rw [hfs])
        subst hp1; subst hq1
        simp [this]

theorem findSep_some_length {s p q : Bytes} (h : findSep s = some (p, q)) :
    q.length + sep.length ≤ s.length := by
  have := findSep_some s p q h
  subst this
  simp only [List.length_append]
  omega

theorem splitSepF_congr : ∀ f f' s, s.length < f → s.length < f' →
    splitSepF f s = splitSepF f' s := by
  intro f
  induction f with
  | zero => intro f' s h; omega
  | succ n ih =>
    intro f' s h h'
    cases f' with
    | zero => omega
    | succ m =>
      simp only [splitSepF]
      cases hfs : findSep s with
      | none => rfl
      | some pq =>
        have hlen := findSep_some_length (p := pq.1) (q := pq.2) (by rw [hfs])
        have hs : 1 ≤ sep.length := by decide
        exact congrArg (pq.1 :: ·) (ih m pq.2 (by omega) (by omega))

/-- Unfolding of `splitSep` when no separator occurs. -/
theorem splitSep_eq_none {s : Bytes} (h : findSep s = none) :
    splitSep s = [s] := by
  unfold splitSep
  simp [splitSepF, h]

/-- Unfolding of `splitSep` at the first separator occurrence,
hiding the fuel. -/
theorem splitSep_eq_some {s p q : Bytes} (h : findSep s = some (p, q)) :
    splitSep s = p :: splitSep q := by
  have hlen := findSep_some_length h
  have hs : 1 ≤ sep.length := by decide
  unfold splitSep
  simp only [splitSepF, h]
  exact congrArg (p :: ·)
    (splitSepF_congr s.length (q.length + 1) q (by omega) (by omega))

theorem splitSep_ne_nil (s : Bytes) : splitSep s ≠ [] := by
  cases hfs : findSep s with
  | none => rw [splitSep_eq_none hfs]; simp
  | some pq => rw [splitSep_eq_some (p := pq.1) (q := pq.2) (by rw [hfs])]; simp

theorem sepJoin_cons_of_ne_nil (x : Bytes) {l : List Bytes} (h : l ≠ []) :
    sepJoin (x :: l) = x ++ sep ++ sepJoin l := by
  cases l with
  | nil => exact absurd rfl h
  | cons y t => rfl

/-- `bytes.Split` loses no bytes: interleaving the separator back
between the fragments reproduces the split input exactly. -/
theorem sepJoin_splitSep (s : Bytes) : sepJoin (splitSep s) = s := by
  suffices h : ∀ n s, List.length s ≤ n → sepJoin (splitSep s) = s from
    h s.length s (le_refl _)
  intro n
  induction n with
  | zero =>
    intro s hs
    have : s = [] := List.length_eq_zero.mp (Nat.le_zero.mp hs)
    subst this
    rfl
  | succ n ih =>
    intro s hs
    cases hfs : findSep s with
    | none => rw [splitSep_eq_none hfs]; rfl
    | some pq =>
      have hfs' : findSep s = some (pq.1, pq.2) := by rw [hfs]
      have heq := findSep_some s pq.1 pq.2 hfs'
      have hlen := findSep_some_length hfs'
      have hsl : 1 ≤ sep.length := by decide
      rw [splitSep_eq_some hfs',
        sepJoin_cons_of_ne_nil _ (splitSep_ne_nil pq.2),
        ih pq.2 (by omega)]
      simp [heq]

theorem isPrefixOf_append_of {a u : Bytes} (v : Bytes)
    (h : a.isPrefixOf u = true) : a.isPrefixOf (u ++ v) = true := by
  obtain ⟨t, rfl⟩ := (isPrefixOf_eq_true_iff a u).mp h
  exact (isPrefixOf_eq_true_iff a _).mpr ⟨t ++ v, by simp⟩

theorem isPrefixOf_append_of_le (a : Bytes) : ∀ u v : Bytes,
    a.length ≤ u.length → a.isPrefixOf (u ++ v) = a.isPrefixOf u := by
  induction a with
  | nil => intro u v _; cases u <;> simp [List.isPrefixOf]
  | cons x xs ih =>
    intro u v h
    cases u with
    | nil => simp at h
    | cons y ys =>
      show (x :: xs).isPrefixOf (y :: (ys ++ v)) = (x :: xs).isPrefixOf (y :: ys)
      simp only [List.isPrefixOf]
      rw [ih ys v (by simpa using h)]

theorem findSep_append {u : Bytes} (v : Bytes) : ∀ {p q : Bytes},
    findSep u = some (p, q) → findSep (u ++ v) = some (p, q ++ v) := by
  induction u with
  | nil => intro p q h; simp [findSep] at h
  | cons c t ih =>
    intro p q h
    rw [findSep] at h
    show findSep (c :: (t ++ v)) = some (p, q ++ v)
    rw [findSep]
    by_cases hp : sep.isPrefixOf (c :: t)
    · rw [if_pos hp] at h
      injection h with h1
      injection h1 with hp1 hq1
      obtain ⟨w, hw⟩ := (isPrefixOf_eq_true_iff sep (c :: t)).mp hp
      have hp' : sep.isPrefixOf (c :: (t ++ v)) = true := by
        rw [show c :: (t ++ v) = (c :: t) ++ v from rfl]
        exact isPrefixOf_append_of v hp
      rw [if_pos hp']
      have hqw : q = w := by
        rw [← hq1, hw, List.drop_append_of_le_length (le_refl _),
          List.drop_length, List.nil_append]
      have hdrop : (c :: (t ++ v)).drop sep.length = q ++ v := by
        rw [show c :: (t ++ v) = (c :: t) ++ v from rfl, hw, List.append_assoc,
          List.drop_append_of_le_length (le_refl _), List.drop_length,
          List.nil_append, hqw]
      rw [hdrop, ← hp1]
    · rw [if_neg hp] at h
      cases hfs : findSep t with
      | none => rw [hfs] at h; simp at h
      | some pq =>
        rw [hfs] at h
        simp only [Option.map_some'] at h
        injection h with h1
        injection h1 with hp1 hq1
        have htlen := findSep_some_length (p := pq.1) (q := pq.2) (by rw [hfs])
        have hp2 : sep.isPrefixOf (c :: (t ++ v)) = sep.isPrefixOf (c :: t) := by
          rw [show c :: (t ++ v) = (c :: t) ++ v from rfl]
          exact isPrefixOf_append_of_le sep (c :: t) v
            (by simp only [List.length_cons]; omega)
        rw [if_neg (by rw [hp2]; exact hp),
          ih (p := pq.1) (q := pq.2) (by rw [hfs])]
        simp [← hp1, ← hq1]

theorem getLastD_of_ne_nil {α : Type} {l : List α} (h : l ≠ []) (d d' : α) :
    l.getLastD d = l.getLastD d' := by
  cases l with
  | nil => exact absurd rfl h
  | cons a t => rfl

theorem dropLast_cons_of_ne_nil {α : Type} (a : α) {l : List α} (h : l ≠ []) :
    (a :: l).dropLast = a :: l.dropLast := by
  cases l with
  | nil => exact absurd rfl h
  | cons b t => rfl

/-- Appending more input never disturbs the fragments already split off:
the new split is the committed fragments followed by the split of the
retained last fragment extended by the new bytes.  This is the heart of
chunk-boundary invariance for `decode`. -/
theorem splitSep_append (u v : Bytes) :
    splitSep (u ++ v) =
      (splitSep u).dropLast ++ splitSep ((splitSep u).getLastD [] ++ v) := by
  suffices h : ∀ n u v, List.length u ≤ n → splitSep (u ++ v) =
      (splitSep u).dropLast ++ splitSep ((splitSep u).getLastD [] ++ v) from
    h u.length u v (le_refl _)
  intro n
  induction n with
  | zero =>
    intro u v hu
    have : u = [] := List.length_eq_zero.mp (Nat.le_zero.mp hu)
    subst this
    rw [show splitSep [] = [[]] from splitSep_eq_none rfl]
    simp
  | succ n ih =>
    intro u v hu
    cases hfs : findSep u with
    | none =>
      conv_rhs => rw [splitSep_eq_none hfs]
      simp
    | some pq =>
      have hfs' : findSep u = some (pq.1, pq.2) := by rw [hfs]
      have hlen := findSep_some_length hfs'
      have hsl : 1 ≤ sep.length := by decide
      have hne := splitSep_ne_nil pq.2
      rw [splitSep_eq_some (findSep_append v hfs'),
        splitSep_eq_some hfs',
        dropLast_cons_of_ne_nil _ hne,
        List.getLastD_cons, getLastD_of_ne_nil hne pq.1 [],
        ih pq.2 v (by omega)]
      simp

/-- The last fragment retained by a split contains no separator. -/
theorem findSep_getLastD_splitSep (s : Bytes) :
    findSep ((splitSep s).getLastD []) = none := by
  suffices h : ∀ n s, List.length s ≤ n →
      findSep ((splitSep s).getLastD []) = none from h s.length s (le_refl _)
  intro n
  induction n with
  | zero =>
    intro s hs
    have : s = [] := List.length_eq_zero.mp (Nat.le_zero.mp hs)
    subst this
    rw [splitSep_eq_none (by rfl)]
    rfl
  | succ n ih =>
    intro s hs
    cases hfs : findSep s with
    | none => rw [splitSep_eq_none hfs]; exact hfs
    | some pq =>
      have hfs' : findSep s = some (pq.1, pq.2) := by rw [hfs]
      have hlen := findSep_some_length hfs'
      have hsl : 1 ≤ sep.length := by decide
      have hne := splitSep_ne_nil pq.2
      rw [splitSep_eq_some hfs', List.getLastD_cons,
        getLastD_of_ne_nil hne pq.1 []]
      exact ih pq.2 (by omega)

theorem splitSep_length_le_one_iff (s : Bytes) :
    (splitSep s).length ≤ 1 ↔ findSep s = none := by
  cases hfs : findSep s with
  | none => simp [splitSep_eq_none hfs]
  | some pq =>
    have hfs' : findSep s = some (pq.1, pq.2) := by rw [hfs]
    rw [splitSep_eq_some hfs']
    simp only [List.length_cons]
    constructor
    · intro h
      have := splitSep_ne_nil pq.2
      have : 1 ≤ (splitSep pq.2).length := by
        cases hsp : splitSep pq.2 with
        | nil => exact absurd hsp this
        | cons a t => simp
      omega
    · intro h; exact absurd h (by simp)

theorem allClean_cons {c : Chunk} {rest : Reader} :
    allClean (c :: rest) ↔ c.2 = none ∧ allClean rest := by
  simp [allClean]

theorem compactFrags_length : ∀ {l : List Bytes} {rs : List Bytes},
    compactFrags l = .ok rs → rs.length = l.length := by
  intro l
  induction l with
  | nil => intro rs h; injection h with h1; subst h1; rfl
  | cons f fs ih =>
    intro rs h
    rw [compactFrags] at h
    cases hc : compactRecord f with
    | none => rw [hc] at h; exact absurd h (by simp)
    | some d =>
      rw [hc] at h
      cases hf : compactFrags fs with
      | error e => rw [hf] at h; exact absurd h (by simp)
      | ok ds =>
        rw [hf] at h
        injection h with h1
        subst h1
        simp [ih hf]

theorem compactFrags_error_eq : ∀ {l : List Bytes} {e : DErr},
    compactFrags l = .error e → e = .compactE := by
  intro l
  induction l with
  | nil => intro e h; exact absurd h (by simp [compactFrags])
  | cons f fs ih =>
    intro e h
    rw [compactFrags] at h
    cases hc : compactRecord f with
    | none => rw [hc] at h; injection h with h1; exact h1.symm
    | some d =>
      rw [hc] at h
      cases hf : compactFrags fs with
      | error e' =>
        rw [hf] at h
        injection h with h1
        subst h1
        exact ih hf
      | ok ds => rw [hf] at h; exact absurd h (by simp)

theorem compactFrags_append_ok : ∀ {a b : List Bytes} {rs : List Bytes},
    compactFrags (a ++ b) = .ok rs →
    ∃ ra rb, compactFrags a = .ok ra ∧ compactFrags b = .ok rb ∧ rs = ra ++ rb := by
  intro a
  induction a with
  | nil => intro b rs h; exact ⟨[], rs, rfl, h, rfl⟩
  | cons f fs ih =>
    intro b rs h
    rw [List.cons_append, compactFrags] at h
    cases hc : compactRecord f with
    | none => rw [hc] at h; exact absurd h (by simp)
    | some d =>
      rw [hc] at h
      cases hf : compactFrags (fs ++ b) with
      | error e => rw [hf] at h; exact absurd h (by simp)
      | ok ds =>
        rw [hf] at h
        injection h with h1
        subst h1
        obtain ⟨ra, rb, hra, hrb, hds⟩ := ih hf
        refine ⟨d :: ra, rb, ?_, hrb, by simp [hds]⟩
        rw [compactFrags, hc, hra]

/-- Specification of a successful pass through the `first` loop of
`decode`: some positive number `n` of reads is consumed, all clean, `n`
is the first read making at least 3 bytes available, and the retained
buffer is everything delivered beyond the first 3 bytes. -/
theorem preambleLoop_spec : ∀ (rdr : Reader) (buf : Bytes),
    (preambleLoop buf rdr).1 = none →
    ∃ n, 0 < n ∧ n ≤ rdr.length ∧
      (preambleLoop buf rdr).2.2 = rdr.drop n ∧
      allClean (rdr.take n) ∧
      3 ≤ (buf ++ bytesOf (rdr.take n)).length ∧
      (∀ k, 0 < k → k < n → (buf ++ bytesOf (rdr.take k)).length < 3) ∧
      (preambleLoop buf rdr).2.1 = (buf ++ bytesOf (rdr.take n)).drop 3 := by
  intro rdr
  induction rdr with
  | nil => intro buf h; exact absurd h (by simp [preambleLoop])
  | cons c rest ih =>
    intro buf h
    obtain ⟨bs, oe⟩ := c
    cases oe with
    | some e => exact absurd h (by simp [preambleLoop])
    | none =>
      by_cases h3 : 3 ≤ buf.length + bs.length
      · refine ⟨1, Nat.one_pos, by simp, ?_, ?_, ?_, ?_, ?_⟩
        · simp [preambleLoop, h3]
        · intro x hx
          simp at hx
          simp [hx]
        · simpa [bytesOf, catList] using h3
        · intro k hk hk1; omega
        · simp [preambleLoop, h3, bytesOf, catList]
      · have h' : (preambleLoop (buf ++ bs) rest).1 = none := by
          simpa [preambleLoop, h3] using h
        obtain ⟨n, hn0, hnle, hrdr, hcl, h3le, hmin, hbuf⟩ := ih (buf ++ bs) h'
        refine ⟨n + 1, Nat.succ_pos n, by simpa using hnle, ?_, ?_, ?_, ?_, ?_⟩
        · simpa [preambleLoop, h3] using hrdr
        · intro x hx
          simp only [List.take_succ_cons, List.mem_cons] at hx
          cases hx with
          | inl hx => simp [hx]
          | inr hx => exact hcl x hx
        · simpa [bytesOf, catList, List.append_assoc] using h3le
        · intro k hk0 hk1
          cases k with
          | zero => omega
          | succ k' =>
            cases k' with
            | zero =>
              simpa [bytesOf, catList] using Nat.lt_of_not_le h3
            | succ k'' =>
              have := hmin (k'' + 1) (Nat.succ_pos _) (by omega)
              simpa [bytesOf, catList, List.append_assoc] using this
        · simpa [preambleLoop, h3, bytesOf, catList,
            List.append_assoc] using hbuf

/-- Specification of a successful pass through the record-extraction
loop of `decode`: some positive number `n` of clean reads is consumed,
the accumulated bytes split into at least two fragments, the returned
records are the compacted fragments except the last, and the retained
buffer is exactly the last fragment. -/
theorem recordLoop_ok_spec : ∀ (rdr : Reader) (buf : Bytes) {ents : List Bytes},
    (recordLoop buf rdr).res = .ok ents →
    ∃ n, 0 < n ∧ n ≤ rdr.length ∧
      (recordLoop buf rdr).rdr = rdr.drop n ∧
      allClean (rdr.take n) ∧
      1 < (splitSep (buf ++ bytesOf (rdr.take n))).length ∧
      compactFrags ((splitSep (buf ++ bytesOf (rdr.take n))).dropLast) = .ok ents ∧
      (recordLoop buf rdr).buf = (splitSep (buf ++ bytesOf (rdr.take n))).getLastD [] := by
  intro rdr
  induction rdr with
  | nil => intro buf ents h; exact absurd h (by simp [recordLoop])
  | cons c rest ih =>
    intro buf ents h
    obtain ⟨bs, oe⟩ := c
    cases oe with
    | some e => exact absurd h (by simp [recordLoop])
    | none =>
      by_cases h1 : (splitSep (buf ++ bs)).length ≤ 1
      · have heq : recordLoop buf ((bs, none) :: rest) = recordLoop (buf ++ bs) rest := by
          simp [recordLoop, if_pos h1]
        rw [heq] at h
        obtain ⟨n, hn0, hnle, hrdr, hcl, hsp, hcf, hbuf⟩ := ih (buf ++ bs) h
        refine ⟨n + 1, Nat.succ_pos n, by simpa using hnle, ?_, ?_, ?_, ?_, ?_⟩
        · rw [heq]; simpa using hrdr
        · intro x hx
          simp only [List.take_succ_cons, List.mem_cons] at hx
          cases hx with
          | inl hx => simp [hx]
          | inr hx => exact hcl x hx
        · simpa [bytesOf, catList, List.append_assoc] using hsp
        · simpa [bytesOf, catList, List.append_assoc] using hcf
        · rw [heq]
          simpa [bytesOf, catList, List.append_assoc] using hbuf
      · cases hc : compactFrags (splitSep (buf ++ bs)).dropLast with
        | error er =>
          have : (recordLoop buf ((bs, none) :: rest)).res = .error er := by
            simp [recordLoop, if_neg h1, hc]
          rw [this] at h
          exact absurd h (by simp)
        | ok ents' =>
          have hres : (recordLoop buf ((bs, none) :: rest)).res = .ok ents' := by
            simp [recordLoop, if_neg h1, hc]
          have hents : ents' = ents := by
            rw [hres] at h; injection h
          subst hents
          refine ⟨1, Nat.one_pos, by simp, ?_, ?_, ?_, ?_, ?_⟩
          · simp [recordLoop, if_neg h1, hc]
          · intro x hx
            simp at hx
            simp [hx]
          · simpa [bytesOf, catList] using Nat.lt_of_not_le h1
          · simpa [bytesOf, catList] using hc
          · simp [recordLoop, if_neg h1, hc, bytesOf, catList]

/-- A successful `decode` call consumes at least one read. -/
theorem decode_ok_consumes {st : DecoderState} {rdr : Reader} {ents : List Bytes}
    (h : (decode st rdr).res = .ok ents) :
    (decode st rdr).rdr.length < rdr.length := by
  by_cases hf : st.first
  · cases hp : preambleLoop st.buf rdr with
    | mk oe rest =>
      obtain ⟨buf', rdr'⟩ := rest
      cases oe with
      | some e =>
        rw [decode, if_pos hf, hp] at h
        exact absurd h (by simp)
      | none =>
        have hd : decode st rdr =
            ⟨(recordLoop buf' rdr').res, ⟨(recordLoop buf' rdr').buf, false⟩,
              (recordLoop buf' rdr').rdr⟩ := by
          rw [decode, if_pos hf, hp]
        rw [hd] at h ⊢
        obtain ⟨n, hn0, hnle, hrdr, -, -, -, -⟩ := recordLoop_ok_spec rdr' buf' h
        have hple : (preambleLoop st.buf rdr).1 = none := by rw [hp]
        obtain ⟨m, hm0, hmle, hrdr2, -, -, -, -⟩ := preambleLoop_spec rdr st.buf hple
        have hr' : rdr' = rdr.drop m := by rw [hp] at hrdr2; exact hrdr2
        subst hr'
        simp only [List.length_drop] at hnle
        simp only [hrdr, List.length_drop]
        omega
  · have hd : decode st rdr =
        ⟨(recordLoop st.buf rdr).res, ⟨(recordLoop st.buf rdr).buf, false⟩,
          (recordLoop st.buf rdr).rdr⟩ := by
      rw [decode, if_neg hf]
    rw [hd] at h ⊢
    obtain ⟨n, hn0, hnle, hrdr, -, -, -, -⟩ := recordLoop_ok_spec rdr st.buf h
    simp only [hrdr, List.length_drop]
    omega

theorem driveF_congr : ∀ f f' (st : DecoderState) (rdr : Reader),
    rdr.length < f → rdr.length < f' → driveF f st rdr = driveF f' st rdr := by
  intro f
  induction f with
  | zero => intro f' st rdr h; omega
  | succ n ih =>
    intro f' st rdr h h'
    cases f' with
    | zero => omega
    | succ m =>
      simp only [driveF]
      cases hd : (decode st rdr).res with
      | error e => rfl
      | ok ents =>
        have hc := decode_ok_consumes hd
        rw [ih m (decode st rdr).st (decode st rdr).rdr (by omega) (by omega)]

theorem drive_err {st : DecoderState} {rdr : Reader} {e : DErr}
    (h : (decode st rdr).res = .error e) :
    drive st rdr = ⟨[], (decode st rdr).st, (decode st rdr).rdr, some e⟩ := by
  unfold drive
  simp only [driveF, h]

theorem drive_ok {st : DecoderState} {rdr : Reader} {ents : List Bytes}
    (h : (decode st rdr).res = .ok ents) :
    drive st rdr =
      ⟨ents ++ (drive (decode st rdr).st (decode st rdr).rdr).recs,
        (drive (decode st rdr).st (decode st rdr).rdr).st,
        (drive (decode st rdr).st (decode st rdr).rdr).rdr,
        (drive (decode st rdr).st (decode st rdr).rdr).err⟩ := by
  have hc := decode_ok_consumes h
  have he : drive (decode st rdr).st (decode st rdr).rdr
      = driveF rdr.length (decode st rdr).st (decode st rdr).rdr := by
    unfold drive
    exact driveF_congr _ _ _ _ (by omega) (by omega)
  rw [he]
  unfold drive
  simp only [driveF, h]

/-- `drive` only looks at the reader through `decode`. -/
theorem drive_congr_decode {st1 st2 : DecoderState} {r1 r2 : Reader}
    (h : decode st1 r1 = decode st2 r2) : drive st1 r1 = drive st2 r2 := by
  cases hd : (decode st1 r1).res with
  | error e =>
    rw [drive_err hd, drive_err (show (decode st2 r2).res = .error e by rw [← h, hd]), h]
  | ok ents =>
    rw [drive_ok hd, drive_ok (show (decode st2 r2).res = .ok ents by rw [← h, hd]), h]

theorem bytesOf_append (a b : Reader) : bytesOf (a ++ b) = bytesOf a ++ bytesOf b := by
  simp [bytesOf, catList_append]

theorem dropLast_append_of_ne_nil : ∀ (a : List Bytes) {b : List Bytes},
    b ≠ [] → (a ++ b).dropLast = a ++ b.dropLast := by
  intro a
  induction a with
  | nil => intro b _; rfl
  | cons x t ih =>
    intro b hb
    have ht : t ++ b ≠ [] := by
      intro hc
      exact hb (List.append_eq_nil.mp hc).2
    rw [List.cons_append, dropLast_cons_of_ne_nil x ht, ih hb, List.cons_append]

theorem decode_false_eq (buf : Bytes) (rdr : Reader) :
    decode ⟨buf, false⟩ rdr =
      ⟨(recordLoop buf rdr).res, ⟨(recordLoop buf rdr).buf, false⟩,
        (recordLoop buf rdr).rdr⟩ := by
  rw [decode]
  rfl

theorem recordLoop_skip {buf bs : Bytes} (rest : Reader)
    (h1 : (splitSep (buf ++ bs)).length ≤ 1) :
    recordLoop buf ((bs, none) :: rest) = recordLoop (buf ++ bs) rest := by
  simp [recordLoop, if_pos h1]

/-- Every way of carving one producer stream into successful reads
yields, over the repeated record-extraction calls, exactly the
compacted non-final fragments of the total delivered byte sequence
(provided they all compact): the canonical form behind chunk-boundary
invariance. -/
theorem driveR_canonical : ∀ (rdr : Reader), allClean rdr → rdr ≠ [] →
    ∀ (buf : Bytes) (ents : List Bytes),
    compactFrags ((splitSep (buf ++ bytesOf rdr)).dropLast) = .ok ents →
    (drive ⟨buf, false⟩ rdr).recs = ents := by
  intro rdr
  induction rdr with
  | nil => intro _ hne; exact absurd rfl hne
  | cons c rest ih =>
    intro hcl _ buf ents hcf
    obtain ⟨bs, oe⟩ := c
    have hoe : oe = none := (allClean_cons.mp hcl).1
    subst hoe
    have hclr : allClean rest := (allClean_cons.mp hcl).2
    have htot : buf ++ bytesOf ((bs, none) :: rest) = (buf ++ bs) ++ bytesOf rest := by
      simp [bytesOf, catList, List.append_assoc]
    rw [htot] at hcf
    by_cases h1 : (splitSep (buf ++ bs)).length ≤ 1
    · cases rest with
      | nil =>
        have hsing : splitSep (buf ++ bs) = [buf ++ bs] :=
          splitSep_eq_none ((splitSep_length_le_one_iff _).mp h1)
        rw [show bytesOf ([] : Reader) = [] from rfl, List.append_nil, hsing] at hcf
        have hents : ents = [] := by
          have : compactFrags [] = Except.ok ents := hcf
          rw [compactFrags] at this
          injection this with h2
          exact h2.symm
        subst hents
        have hres : (decode ⟨buf, false⟩ [(bs, none)]).res = .error (.readE 0) := by
          rw [decode_false_eq, recordLoop_skip [] h1]
          rfl
        rw [drive_err hres]
      | cons c2 rest2 =>
        have heqd : decode ⟨buf, false⟩ ((bs, none) :: c2 :: rest2)
            = decode ⟨buf ++ bs, false⟩ (c2 :: rest2) := by
          rw [decode_false_eq, decode_false_eq, recordLoop_skip _ h1]
        rw [drive_congr_decode heqd]
        exact ih hclr (by simp) (buf ++ bs) ents hcf
    · have hsplit := splitSep_append (buf ++ bs) (bytesOf rest)
      have htne : splitSep ((splitSep (buf ++ bs)).getLastD [] ++ bytesOf rest) ≠ [] :=
        splitSep_ne_nil _
      rw [hsplit, dropLast_append_of_ne_nil _ htne] at hcf
      obtain ⟨ra, rb, hra, hrb, hab⟩ := compactFrags_append_ok hcf
      have hres : (decode ⟨buf, false⟩ ((bs, none) :: rest)).res = .ok ra ∧
          (decode ⟨buf, false⟩ ((bs, none) :: rest)).st
            = ⟨(splitSep (buf ++ bs)).getLastD [], false⟩ ∧
          (decode ⟨buf, false⟩ ((bs, none) :: rest)).rdr = rest := by
        rw [decode_false_eq]
        have : recordLoop buf ((bs, none) :: rest)
            = ⟨.ok ra, (splitSep (buf ++ bs)).getLastD [], rest⟩ := by
          simp [recordLoop, if_neg h1, hra]
        rw [this]
        exact ⟨rfl, rfl, rfl⟩
      obtain ⟨hres1, hres2, hres3⟩ := hres
      rw [drive_ok hres1, hres2, hres3, hab]
      cases rest with
      | nil =>
        have hrb0 : rb = [] := by
          have hlast : findSep ((splitSep (buf ++ bs)).getLastD []) = none :=
            findSep_getLastD_splitSep _
          rw [show bytesOf ([] : Reader) = [] from rfl, List.append_nil,
            splitSep_eq_none hlast] at hrb
          have : compactFrags [] = Except.ok rb := hrb
          rw [compactFrags] at this
          injection this with h2
          exact h2.symm
        have hres0 : (decode ⟨(splitSep (buf ++ bs)).getLastD [], false⟩
            ([] : Reader)).res = .error (.readE 0) := by
          rw [decode_false_eq]
          rfl
        rw [drive_err hres0, hrb0]
      | cons c2 rest2 =>
        rw [ih hclr (by simp) ((splitSep (buf ++ bs)).getLastD []) rb hrb]

/-- With the preamble consumed, the first `decode` call behaves as a
pure record-extraction call on the retained suffix. -/
theorem decode_fresh_eq {rdr : Reader} {buf1 : Bytes} {rdr1 : Reader}
    (hp : preambleLoop [] rdr = (none, buf1, rdr1)) :
    decode ⟨[], true⟩ rdr = decode ⟨buf1, false⟩ rdr1 := by
  rw [decode, decode]
  simp only [hp]
  rfl

/-- Canonical form of the records produced over an entire clean stream
from a fresh decoder state: the preamble (3 bytes) is dropped, the rest
is split, and all fragments but the last are compacted — provided the
preamble succeeds and does not swallow the whole stream, and all
complete fragments compact. -/
theorem drive_canonical_fresh {rdr : Reader} {ents : List Bytes}
    (hcl : allClean rdr)
    (hpe : (preambleLoop [] rdr).1 = none)
    (hpr : (preambleLoop [] rdr).2.2 ≠ [])
    (hcf : compactFrags ((splitSep ((bytesOf rdr).drop 3)).dropLast) = .ok ents) :
    (drive ⟨[], true⟩ rdr).recs = ents := by
  obtain ⟨n, hn0, hnle, hrdr, hcln, h3le, -, hbuf⟩ := preambleLoop_spec rdr [] hpe
  cases hp : preambleLoop [] rdr with
  | mk oe rest =>
    obtain ⟨buf1, rdr1⟩ := rest
    have hoe : oe = none := by rw [hp] at hpe; exact hpe
    subst hoe
    rw [hp] at hrdr hbuf hpr
    simp only at hrdr hbuf hpr
    have h3le' : 3 ≤ (bytesOf (rdr.take n)).length := by simpa using h3le
    have htot : buf1 ++ bytesOf rdr1 = (bytesOf rdr).drop 3 := by
      rw [hbuf, hrdr]
      rw [show (bytesOf rdr) = bytesOf (rdr.take n) ++ bytesOf (rdr.drop n) by
        rw [← bytesOf_append, List.take_append_drop]]
      rw [List.drop_append_of_le_length h3le']
      simp
    rw [drive_congr_decode (decode_fresh_eq hp)]
    apply driveR_canonical rdr1 ?_ hpr buf1 ents (by rw [htot]; exact hcf)
    intro x hx
    rw [hrdr] at hx
    exact hcl x (List.drop_subset n rdr hx)

theorem runInnerF_congr : ∀ f f' (st : DecoderState) (rdr : Reader) (ws : List WriteRes),
    rdr.length < f → rdr.length < f' →
    runInnerF f st rdr ws = runInnerF f' st rdr ws := by
  intro f
  induction f with
  | zero => intro f' st rdr ws h; omega
  | succ n ih =>
    intro f' st rdr ws h h'
    cases f' with
    | zero => omega
    | succ m =>
      simp only [runInnerF]
      cases hd : (decode st rdr).res with
      | error e => rfl
      | ok ents =>
        have hc := decode_ok_consumes hd
        cases ws with
        | nil => rfl
        | cons w ws' =>
          cases w with
          | wok =>
            have heq := ih m (decode st rdr).st (decode st rdr).rdr ws' (by omega) (by omega)
            simp only [heq]
          | canceled => rfl
          | werr =>
            have heq := ih m (decode st rdr).st (decode st rdr).rdr ws' (by omega) (by omega)
            simp only [heq]

theorem runInner_err {st : DecoderState} {rdr : Reader} {e : DErr}
    (ws : List WriteRes) (h : (decode st rdr).res = .error e) :
    runInner st rdr ws = ⟨[.decodeCallA st, .logA], (decode st rdr).st, .decodeErr ws⟩ := by
  unfold runInner
  simp only [runInnerF, h]

theorem runInner_ok_wok {st : DecoderState} {rdr : Reader} {ents : List Bytes}
    (ws' : List WriteRes) (h : (decode st rdr).res = .ok ents) :
    runInner st rdr (.wok :: ws') =
      ⟨.decodeCallA st :: .submitA ents ::
          (runInner (decode st rdr).st (decode st rdr).rdr ws').acts,
        (runInner (decode st rdr).st (decode st rdr).rdr ws').st,
        (runInner (decode st rdr).st (decode st rdr).rdr ws').exit⟩ := by
  have hc := decode_ok_consumes h
  have he : runInner (decode st rdr).st (decode st rdr).rdr ws'
      = runInnerF rdr.length (decode st rdr).st (decode st rdr).rdr ws' := by
    unfold runInner
    exact runInnerF_congr _ _ _ _ _ (by omega) (by omega)
  rw [he]
  unfold runInner
  simp only [runInnerF, h]

theorem runInner_ok_werr {st : DecoderState} {rdr : Reader} {ents : List Bytes}
    (ws' : List WriteRes) (h : (decode st rdr).res = .ok ents) :
    runInner st rdr (.werr :: ws') =
      ⟨.decodeCallA st :: .submitA ents :: .logA ::
          (runInner (decode st rdr).st (decode st rdr).rdr ws').acts,
        (runInner (decode st rdr).st (decode st rdr).rdr ws').st,
        (runInner (decode st rdr).st (decode st rdr).rdr ws').exit⟩ := by
  have hc := decode_ok_consumes h
  have he : runInner (decode st rdr).st (decode st rdr).rdr ws'
      = runInnerF rdr.length (decode st rdr).st (decode st rdr).rdr ws' := by
    unfold runInner
    exact runInnerF_congr _ _ _ _ _ (by omega) (by omega)
  rw [he]
  unfold runInner
  simp only [runInnerF, h]

theorem runInner_ok_canceled {st : DecoderState} {rdr : Reader} {ents : List Bytes}
    (ws' : List WriteRes) (h : (decode st rdr).res = .ok ents) :
    runInner st rdr (.canceled :: ws') =
      ⟨[.decodeCallA st, .submitA ents], (decode st rdr).st, .canceled ws'⟩ := by
  unfold runInner
  simp only [runInnerF, h]

/-- Every pass of the inner loop starts by calling `decode` with the
current (carried-over) decoder state. -/
theorem runInner_acts_head (st : DecoderState) (rdr : Reader) (ws : List WriteRes) :
    ∃ t, (runInner st rdr ws).acts = .decodeCallA st :: t := by
  unfold runInner
  simp only [runInnerF]
  cases hd : (decode st rdr).res with
  | error e => exact ⟨[.logA], rfl⟩
  | ok ents =>
    cases ws with
    | nil => exact ⟨[], rfl⟩
    | cons w ws' =>
      cases w with
      | wok => exact ⟨_, rfl⟩
      | canceled => exact ⟨_, rfl⟩
      | werr => exact ⟨_, rfl⟩

/-- The inner loop never kills the producer process: the only
`cmd.Process.Kill()` in `run` sits after the inner loop. -/
theorem runInner_no_kill (st : DecoderState) (rdr : Reader) (ws : List WriteRes) :
    Act.killA ∉ (runInner st rdr ws).acts := by
  suffices h : ∀ f st rdr ws, Act.killA ∉ (runInnerF f st rdr ws).acts from
    h _ st rdr ws
  intro f
  induction f with
  | zero => intro st rdr ws; simp [runInnerF]
  | succ n ih =>
    intro st rdr ws
    simp only [runInnerF]
    cases hd : (decode st rdr).res with
    | error e => simp
    | ok ents =>
      cases ws with
      | nil => simp
      | cons w ws' =>
        cases w with
        | wok => simpa using ih (decode st rdr).st (decode st rdr).rdr ws'
        | canceled => simp
        | werr => simpa using ih (decode st rdr).st (decode st rdr).rdr ws'

theorem runOuter_ok_decodeErr {st : DecoderState} {rdr : Reader}
    {ws ws' : List WriteRes} (ls : List LaunchSpec)
    (h : (runInner st rdr ws).exit = .decodeErr ws') :
    runOuter (.ok rdr :: ls) st ws =
      ⟨.launchA :: ((runInner st rdr ws).acts ++
          .killA :: (runOuter ls (runInner st rdr ws).st ws').acts),
        (runOuter ls (runInner st rdr ws).st ws').outcome,
        (runOuter ls (runInner st rdr ws).st ws').st⟩ := by
  simp only [runOuter, h]

theorem runOuter_ok_canceled {st : DecoderState} {rdr : Reader}
    {ws ws' : List WriteRes} (ls : List LaunchSpec)
    (h : (runInner st rdr ws).exit = .canceled ws') :
    runOuter (.ok rdr :: ls) st ws =
      ⟨.launchA :: (runInner st rdr ws).acts, .returned, (runInner st rdr ws).st⟩ := by
  simp only [runOuter, h]

/-- Except for `lg.Fatal` on a failed `cmd.StdoutPipe()`, no trace of
the `run` loop reaches a fatal outcome. -/
theorem runOuter_no_fatal : ∀ (ls : List LaunchSpec) (st : DecoderState)
    (ws : List WriteRes), (∀ l ∈ ls, l ≠ .pipeFail) →
    (runOuter ls st ws).outcome ≠ .fatal := by
  intro ls
  induction ls with
  | nil => intro st ws _ hc; exact Outcome.noConfusion hc
  | cons l ls' ih =>
    intro st ws h
    cases l with
    | pipeFail => exact absurd rfl (h _ (by simp))
    | startFail =>
      intro hc
      exact ih st ws (fun x hx => h x (by simp [hx])) hc
    | ok rdr =>
      cases hex : (runInner st rdr ws).exit with
      | decodeErr ws' =>
        rw [runOuter_ok_decodeErr ls' hex]
        exact ih _ ws' (fun x hx => h x (by simp [hx]))
      | canceled ws' =>
        rw [runOuter_ok_canceled ls' hex]
        exact fun hc => Outcome.noConfusion hc
      | starved =>
        simp only [runOuter, hex]
        exact fun hc => Outcome.noConfusion hc

theorem mkReader_clean (cs : List Bytes) : allClean (mkReader cs) := by
  intro c hc
  simp only [mkReader, List.mem_map] at hc
  obtain ⟨a, -, ha⟩ := hc
  rw [← ha]

theorem mkReader_bytes (cs : List Bytes) : bytesOf (mkReader cs) = catList cs := by
  induction cs with
  | nil => rfl
  | cons c t ih =>
    show c ++ bytesOf (mkReader t) = c ++ catList t
    rw [ih]

/-! ### Claim theorems -/

/-- C1 counterexample: the decoder state is NOT recreated fresh after a
decode-error restart.  In this concrete trace, run 1 strips the
preamble, emits `{"a":1}`, and dies on EOF with the global state
`⟨"\"x\":", false⟩`; the action trace shows that run 2's first decode
call (right after `killA` and the new `launchA`) receives exactly that
carried-over state — a nonempty buffer and an already-consumed
preamble flag — instead of a fresh `⟨[], true⟩`. -/
theorem run_restart_state_not_fresh_counterexample :
    (runOuter [.ok rdrC1a, .ok rdrC1b] ⟨[], true⟩ [.wok]).acts =
      [.launchA, .decodeCallA ⟨[], true⟩, .submitA [str "\x7b\"a\":1\x7d"],
       .decodeCallA ⟨str "\"x\":", false⟩, .logA, .killA, .launchA,
       .decodeCallA ⟨str "\"x\":", false⟩, .logA, .killA] ∧
    DecoderState.mk (str "\"x\":") false ≠ DecoderState.mk [] true := by
  constructor
  · decide
  · decide

/-- C1 (amended): `buf` and `first` are package-level globals that
survive restarts: whenever the inner loop breaks with a decode error
leaving state `st'`, the next producer run's first decode call is made
with exactly `st'` — the previous buffer is carried over and the
preamble adjustment is not applied again. -/
theorem run_restart_reuses_decoder_state
    (st st' : DecoderState) (rdr rdr2 : Reader) (ws ws' : List WriteRes)
    (ls : List LaunchSpec) (a1 : List Act)
    (h : runInner st rdr ws = ⟨a1, st', .decodeErr ws'⟩) :
    ∃ t, (runOuter (.ok rdr :: .ok rdr2 :: ls) st ws).acts
      = .launchA :: a1 ++ .killA :: .launchA :: .decodeCallA st' :: t := by
  have hex : (runInner st rdr ws).exit = .decodeErr ws' := by rw [h]
  rw [runOuter_ok_decodeErr (.ok rdr2 :: ls) hex, h]
  obtain ⟨t0, ht0⟩ := runInner_acts_head st' rdr2 ws'
  cases hex2 : (runInner st' rdr2 ws').exit with
  | decodeErr ws2 =>
    rw [runOuter_ok_decodeErr ls hex2, ht0]
    exact ⟨t0 ++ .killA :: (runOuter ls (runInner st' rdr2 ws').st ws2).acts, by simp⟩
  | canceled ws2 =>
    rw [runOuter_ok_canceled ls hex2, ht0]
    exact ⟨t0, by simp⟩
  | starved =>
    simp only [runOuter, hex2]
    rw [ht0]
    exact ⟨t0, by simp⟩

/-- C1 witness: the amended carry-over theorem applied to the concrete
restart trace. -/
theorem run_restart_reuses_decoder_state_witness :
    runInner ⟨[], true⟩ rdrC1a [.wok]
      = ⟨actsC1, ⟨str "\"x\":", false⟩, .decodeErr []⟩ ∧
    ∃ t, (runOuter [.ok rdrC1a, .ok rdrC1b] ⟨[], true⟩ [.wok]).acts
      = .launchA :: actsC1 ++ .killA :: .launchA
          :: .decodeCallA ⟨str "\"x\":", false⟩ :: t :=
  ⟨by decide,
   run_restart_reuses_decoder_state ⟨[], true⟩ ⟨str "\"x\":", false⟩ rdrC1a rdrC1b
     [.wok] [] [] actsC1 (by decide)⟩

/-- C2 counterexample: for the input `[{\n"a":1\n},{\n"b":2\n}]`,
decoding does NOT yield the two RecordPayloads `{"a":1}` and
`{"b":2}` — neither under single-read delivery (which yields no
records at all: the record loop reads again before splitting and hits
EOF) nor under the preamble/rest split (which yields only
`{"a":1}`). -/
theorem decode_two_records_counterexample :
    (drive ⟨[], true⟩ [(inputC2, none)]).recs
      ≠ [str "\x7b\"a\":1\x7d", str "\x7b\"b\":2\x7d"] ∧
    (drive ⟨[], true⟩ [(inputC2.take 3, none), (inputC2.drop 3, none)]).recs
      ≠ [str "\x7b\"a\":1\x7d", str "\x7b\"b\":2\x7d"] := by
  constructor
  · decide
  · decide

/-- C2 (amended): for the input `[{\n"a":1\n},{\n"b":2\n}]` delivered
as preamble + rest, decoding yields exactly ONE RecordPayload,
`{"a":1}`; the second object's bytes `"b":2\n}]` stay in the
accumulation buffer (a record is only emitted once a following
separator arrives), and the stream then ends in an EOF decode error.
Under whole-input single-read delivery even the first record is lost:
the decoder errors on EOF before ever splitting the buffer. -/
theorem decode_two_records_amended :
    (drive ⟨[], true⟩ [(inputC2.take 3, none), (inputC2.drop 3, none)]).recs
      = [str "\x7b\"a\":1\x7d"] ∧
    (drive ⟨[], true⟩ [(inputC2.take 3, none), (inputC2.drop 3, none)]).st.buf
      = str "\"b\":2\n\x7d]" ∧
    (drive ⟨[], true⟩ [(inputC2.take 3, none), (inputC2.drop 3, none)]).err
      = some (.readE 0) ∧
    (drive ⟨[], true⟩ [(inputC2, none)]).recs = [] := by
  refine ⟨by decide, by decide, by decide, by decide⟩

/-- C3 counterexample: on a cancelled batch submission `run` returns
immediately — but WITHOUT killing the current producer process: the
concrete trace ends at the cancelled submit, outcome `returned`, and no
`killA` (no `cmd.Process.Kill()`) ever appears; the `]` second launch
entry is never consumed. -/
theorem run_canceled_releases_process_counterexample :
    (runOuter [.ok rdrC3, .ok rdrC3] ⟨[], true⟩ [.canceled]).acts =
      [.launchA, .decodeCallA ⟨[], true⟩, .submitA [str "\x7b\"a\":1\x7d"]] ∧
    (runOuter [.ok rdrC3, .ok rdrC3] ⟨[], true⟩ [.canceled]).outcome = .returned ∧
    Act.killA ∉ (runOuter [.ok rdrC3, .ok rdrC3] ⟨[], true⟩ [.canceled]).acts := by
  refine ⟨by decide, by decide, by decide⟩

/-- C3 (amended): when a batch submission returns the cancellation
error, the supervisor loop stops immediately — no restart, no retry, no
further decode or submission (the remaining launch trace is ignored) —
but the current producer process is NOT explicitly terminated on this
path: `run` returns without ever performing a kill (the only
`cmd.Process.Kill()` sits on the decode-error path). -/
theorem run_canceled_stops_without_kill
    (st : DecoderState) (rdr : Reader) (ws ws' : List WriteRes)
    (ls : List LaunchSpec)
    (h : (runInner st rdr ws).exit = .canceled ws') :
    runOuter (.ok rdr :: ls) st ws
      = ⟨.launchA :: (runInner st rdr ws).acts, .returned, (runInner st rdr ws).st⟩ ∧
    Act.killA ∉ (runOuter (.ok rdr :: ls) st ws).acts := by
  have h1 := runOuter_ok_canceled ls h
  refine ⟨h1, ?_⟩
  rw [h1]
  intro hmem
  cases List.mem_cons.mp hmem with
  | inl hc => exact Act.noConfusion hc
  | inr hc => exact runInner_no_kill st rdr ws hc

/-- C3 witness: the amended theorem applied to the concrete cancelled
trace. -/
theorem run_canceled_stops_without_kill_witness :
    (runInner ⟨[], true⟩ rdrC3 [.canceled]).exit = .canceled [] ∧
    (runOuter [.ok rdrC3] ⟨[], true⟩ [.canceled]
        = ⟨.launchA :: (runInner ⟨[], true⟩ rdrC3 [.canceled]).acts, .returned,
            (runInner ⟨[], true⟩ rdrC3 [.canceled]).st⟩ ∧
      Act.killA ∉ (runOuter [.ok rdrC3] ⟨[], true⟩ [.canceled]).acts) :=
  ⟨by decide,
   run_canceled_stops_without_kill ⟨[], true⟩ rdrC3 [.canceled] [] [] (by decide)⟩

/-- C4 counterexample: a failure of `cmd.StdoutPipe()` IS fatal to the
surrounding process — `run` calls `lg.Fatal` — so not every failure
inside the core loop is retried or merely logged. -/
theorem run_pipe_failure_fatal_counterexample :
    runOuter [.pipeFail] ⟨[], true⟩ [] = ⟨[.fatalA], .fatal, ⟨[], true⟩⟩ := by
  decide

/-- C4 (amended): every failure in the core loop except a
`cmd.StdoutPipe()` failure is non-fatal: a `cmd.Start` launch failure
is logged, sleeps the fixed one-second delay and retries indefinitely,
decode errors restart the producer, and non-cancellation submit errors
are logged; but a stdout-pipe acquisition failure terminates the
process via `lg.Fatal`. -/
theorem run_failures_nonfatal_except_pipe
    (ls : List LaunchSpec) (st : DecoderState) (ws : List WriteRes)
    (h : ∀ l ∈ ls, l ≠ .pipeFail) :
    (runOuter ls st ws).outcome ≠ .fatal ∧
    runOuter (.startFail :: ls) st ws
      = ⟨.launchA :: .logA :: .sleepA :: (runOuter ls st ws).acts,
          (runOuter ls st ws).outcome, (runOuter ls st ws).st⟩ :=
  ⟨runOuter_no_fatal ls st ws h, rfl⟩

/-- C4 witness: a concrete pipe-failure-free trace with a launch
failure, a decode error and a successful submit is never fatal. -/
theorem run_failures_nonfatal_except_pipe_witness :
    (∀ l ∈ [LaunchSpec.startFail, .ok rdrC4, .startFail], l ≠ .pipeFail) ∧
    ((runOuter [LaunchSpec.startFail, .ok rdrC4, .startFail]
        ⟨[], true⟩ [.wok]).outcome ≠ .fatal ∧
      runOuter (.startFail :: [LaunchSpec.startFail, .ok rdrC4, .startFail])
          ⟨[], true⟩ [.wok]
        = ⟨.launchA :: .logA :: .sleepA ::
              (runOuter [LaunchSpec.startFail, .ok rdrC4, .startFail]
                ⟨[], true⟩ [.wok]).acts,
            (runOuter [LaunchSpec.startFail, .ok rdrC4, .startFail]
              ⟨[], true⟩ [.wok]).outcome,
            (runOuter [LaunchSpec.startFail, .ok rdrC4, .startFail]
              ⟨[], true⟩ [.wok]).st⟩) :=
  ⟨by decide,
   run_failures_nonfatal_except_pipe [LaunchSpec.startFail, .ok rdrC4, .startFail]
     ⟨[], true⟩ [.wok] (by decide)⟩

/-- C5: steady-state buffer invariant.  Whenever a decode call with the
preamble already consumed returns without error, the new accumulation
buffer is exactly the last fragment of the separator-split of (old
buffer ++ everything read during the call): all bytes after the last
separator occurrence found, with nothing dropped and nothing duplicated
(re-joining the fragments with the separator reproduces those bytes
exactly). -/
theorem decode_buffer_retention (st : DecoderState) (rdr : Reader) (ents : List Bytes)
    (hf : st.first = false) (h : (decode st rdr).res = .ok ents) :
    ∃ n, 0 < n ∧ n ≤ rdr.length ∧ (decode st rdr).rdr = rdr.drop n ∧
      sepJoin (splitSep (st.buf ++ bytesOf (rdr.take n)))
        = st.buf ++ bytesOf (rdr.take n) ∧
      1 < (splitSep (st.buf ++ bytesOf (rdr.take n))).length ∧
      (decode st rdr).st.buf
        = (splitSep (st.buf ++ bytesOf (rdr.take n))).getLastD [] := by
  obtain ⟨buf, fst⟩ := st
  have hf' : fst = false := hf
  subst hf'
  rw [decode_false_eq] at h ⊢
  obtain ⟨n, hn0, hnle, hrdr, -, hsp, -, hbuf⟩ := recordLoop_ok_spec rdr buf h
  exact ⟨n, hn0, hnle, hrdr, sepJoin_splitSep _, hsp, hbuf⟩

/-- C5 witness: the buffer-retention theorem at a concrete stream that
delivers one separator between two records. -/
theorem decode_buffer_retention_witness :
    (decode ⟨str "\"m\":0", false⟩ [(str "\n\x7d,\x7b\nzz", none)]).res
        = .ok [str "\x7b\"m\":0\x7d"] ∧
    ∃ n, 0 < n ∧ n ≤ ([((str "\n\x7d,\x7b\nzz" : Bytes), (none : Option Nat))] : Reader).length ∧
      (decode ⟨str "\"m\":0", false⟩ [(str "\n\x7d,\x7b\nzz", none)]).rdr
        = ([((str "\n\x7d,\x7b\nzz" : Bytes), (none : Option Nat))] : Reader).drop n ∧
      sepJoin (splitSep (str "\"m\":0" ++
          bytesOf (([((str "\n\x7d,\x7b\nzz" : Bytes), (none : Option Nat))] : Reader).take n)))
        = str "\"m\":0" ++
          bytesOf (([((str "\n\x7d,\x7b\nzz" : Bytes), (none : Option Nat))] : Reader).take n) ∧
      1 < (splitSep (str "\"m\":0" ++
          bytesOf (([((str "\n\x7d,\x7b\nzz" : Bytes), (none : Option Nat))] : Reader).take n))).length ∧
      (decode ⟨str "\"m\":0", false⟩ [(str "\n\x7d,\x7b\nzz", none)]).st.buf
        = (splitSep (str "\"m\":0" ++
            bytesOf (([((str "\n\x7d,\x7b\nzz" : Bytes), (none : Option Nat))] : Reader).take n))).getLastD [] :=
  ⟨by decide,
   decode_buffer_retention ⟨str "\"m\":0", false⟩ [(str "\n\x7d,\x7b\nzz", none)]
     [str "\x7b\"m\":0\x7d"] rfl (by decide)⟩

/-- C6 counterexample: partitioning the same input into different read
chunks does NOT always produce the identical record sequence.  For
`[{\n"a":1\n},{\nzz` the preamble/rest partition yields `{"a":1}`
while single-read delivery yields no records at all (the record loop
always reads before splitting, so it hits EOF first). -/
theorem decode_chunk_invariance_counterexample :
    inputC6.take 3 ++ inputC6.drop 3 = inputC6 ∧
    (drive ⟨[], true⟩ (mkReader [inputC6.take 3, inputC6.drop 3])).recs
      ≠ (drive ⟨[], true⟩ (mkReader [inputC6])).recs := by
  constructor
  · decide
  · decide

/-- C6 (amended): chunk-boundary invariance holds for every pair of
partitions in which the preamble phase succeeds without consuming the
final read, provided every complete fragment of the total input
compacts successfully: both produce exactly the compacted non-final
fragments of the input minus its 3-byte preamble.  (Without these
provisos the sequences can differ: single-read delivery loses the
records still in the buffer at EOF, and a malformed fragment discards
the records grouped into the same call.) -/
theorem decode_chunk_invariance
    (cs1 cs2 : List Bytes) (ents : List Bytes)
    (hflat : catList cs1 = catList cs2)
    (h1e : (preambleLoop [] (mkReader cs1)).1 = none)
    (h1r : (preambleLoop [] (mkReader cs1)).2.2 ≠ [])
    (h2e : (preambleLoop [] (mkReader cs2)).1 = none)
    (h2r : (preambleLoop [] (mkReader cs2)).2.2 ≠ [])
    (hcf : compactFrags ((splitSep ((catList cs1).drop 3)).dropLast) = .ok ents) :
    (drive ⟨[], true⟩ (mkReader cs1)).recs
      = (drive ⟨[], true⟩ (mkReader cs2)).recs := by
  rw [drive_canonical_fresh (mkReader_clean cs1) h1e h1r
      (by rw [mkReader_bytes]; exact hcf),
    drive_canonical_fresh (mkReader_clean cs2) h2e h2r
      (by rw [mkReader_bytes, ← hflat]; exact hcf)]

/-- C6 witness: the amended invariance theorem at two concrete
partitions of the same stream, one of which splits the 5-byte
separator sequence across two reads. -/
theorem decode_chunk_invariance_witness :
    catList [str "[\x7b\n\"p\":7\n\x7d,", str "\x7b\nqq"]
      = catList [str "[\x7b\n", str "\"p\":7\n\x7d,\x7b\nqq"] ∧
    (drive ⟨[], true⟩ (mkReader [str "[\x7b\n\"p\":7\n\x7d,", str "\x7b\nqq"])).recs
      = (drive ⟨[], true⟩ (mkReader [str "[\x7b\n", str "\"p\":7\n\x7d,\x7b\nqq"])).recs :=
  ⟨by decide,
   decode_chunk_invariance [str "[\x7b\n\"p\":7\n\x7d,", str "\x7b\nqq"]
     [str "[\x7b\n", str "\"p\":7\n\x7d,\x7b\nqq"] [str "\x7b\"p\":7\x7d"]
     (by decide) (by decide) (by decide) (by decide) (by decide) (by decide)⟩

/-- A successful record-extraction loop never returns an empty record
list: it only breaks out once the split has at least two pieces, and
then emits one record per non-final piece. -/
theorem recordLoop_ok_nonempty {buf : Bytes} {rdr : Reader} {ents : List Bytes}
    (h : (recordLoop buf rdr).res = .ok ents) : ents ≠ [] := by
  obtain ⟨n, -, -, -, -, hsp, hcf, -⟩ := recordLoop_ok_spec rdr buf h
  have hl := compactFrags_length hcf
  have hd : ((splitSep (buf ++ bytesOf (rdr.take n))).dropLast).length
      = (splitSep (buf ++ bytesOf (rdr.take n))).length - 1 :=
    List.length_dropLast _
  intro hc
  subst hc
  simp only [List.length_nil] at hl
  omega

/-- C7: `decode` never returns an empty record sequence with a nil
error: a successful return only happens after a separator was found,
and then at least one fragment is compacted into a record. -/
theorem decode_success_nonempty (st : DecoderState) (rdr : Reader) (ents : List Bytes)
    (h : (decode st rdr).res = .ok ents) : ents ≠ [] := by
  by_cases hf : st.first
  · cases hp : preambleLoop st.buf rdr with
    | mk oe rest =>
      obtain ⟨buf', rdr'⟩ := rest
      cases oe with
      | some e =>
        rw [decode, if_pos hf, hp] at h
        exact absurd h (by simp)
      | none =>
        rw [decode, if_pos hf, hp] at h
        exact recordLoop_ok_nonempty h
  · rw [decode, if_neg hf] at h
    exact recordLoop_ok_nonempty h

/-- C7 witness: the nonemptiness theorem at a concrete successful
decode call. -/
theorem decode_success_nonempty_witness :
    (decode ⟨str "\"w\":4", false⟩ [(str "\n\x7d,\x7b\nrr", none)]).res
        = .ok [str "\x7b\"w\":4\x7d"] ∧
    ([str "\x7b\"w\":4\x7d"] : List Bytes) ≠ [] :=
  ⟨by decide,
   decode_success_nonempty ⟨str "\"w\":4", false⟩ [(str "\n\x7d,\x7b\nrr", none)]
     [str "\x7b\"w\":4\x7d"] (by decide)⟩

/-- C8: on the very first decode invocation for a stream (fresh state),
the preamble loop consumes reads until 3 bytes have accumulated —
across however many reads that takes — discards exactly the stream's
first 3 bytes once, keeps every byte beyond them, clears the `first`
flag, and hands the retained bytes straight to record extraction. -/
theorem decode_first_strips_preamble_once (rdr : Reader)
    (h : (preambleLoop [] rdr).1 = none) :
    ∃ n, 0 < n ∧ n ≤ rdr.length ∧
      (preambleLoop [] rdr).2.2 = rdr.drop n ∧
      allClean (rdr.take n) ∧
      3 ≤ (bytesOf (rdr.take n)).length ∧
      (∀ k, 0 < k → k < n → (bytesOf (rdr.take k)).length < 3) ∧
      (preambleLoop [] rdr).2.1 = (bytesOf (rdr.take n)).drop 3 ∧
      (decode ⟨[], true⟩ rdr).st.first = false ∧
      decode ⟨[], true⟩ rdr
        = decode ⟨(preambleLoop [] rdr).2.1, false⟩ (preambleLoop [] rdr).2.2 := by
  obtain ⟨n, hn0, hnle, hrdr, hcl, h3, hmin, hbuf⟩ := preambleLoop_spec rdr [] h
  cases hp : preambleLoop [] rdr with
  | mk oe rest =>
    obtain ⟨buf1, rdr1⟩ := rest
    have hoe : oe = none := by rw [hp] at h; exact h
    subst hoe
    have hfr := decode_fresh_eq hp
    refine ⟨n, hn0, hnle, by rw [hp] at hrdr; exact hrdr, hcl,
      by simpa using h3, by intro k hk0 hk1; simpa using hmin k hk0 hk1,
      by rw [hp] at hbuf; simpa using hbuf, ?_, ?_⟩
    · rw [hfr, decode_false_eq]
    · exact hfr

/-- C8 witness: the preamble theorem on a stream whose first read is a
single byte, so two reads are needed to reach the 3-byte threshold. -/
theorem decode_first_strips_preamble_once_witness :
    (preambleLoop []
        ([(str "[", none), (str "\x7b\n\"k\":1\n\x7d,\x7b\nzz", none)] : Reader)).1
      = none ∧
    ∃ n, 0 < n ∧
      n ≤ ([((str "[" : Bytes), (none : Option Nat)),
            ((str "\x7b\n\"k\":1\n\x7d,\x7b\nzz" : Bytes), none)] : Reader).length ∧
      (preambleLoop []
          ([(str "[", none), (str "\x7b\n\"k\":1\n\x7d,\x7b\nzz", none)] : Reader)).2.2
        = ([((str "[" : Bytes), (none : Option Nat)),
            ((str "\x7b\n\"k\":1\n\x7d,\x7b\nzz" : Bytes), none)] : Reader).drop n ∧
      allClean (([((str "[" : Bytes), (none : Option Nat)),
            ((str "\x7b\n\"k\":1\n\x7d,\x7b\nzz" : Bytes), none)] : Reader).take n) ∧
      3 ≤ (bytesOf (([((str "[" : Bytes), (none : Option Nat)),
            ((str "\x7b\n\"k\":1\n\x7d,\x7b\nzz" : Bytes), none)] : Reader).take n)).length ∧
      (∀ k, 0 < k → k < n →
        (bytesOf (([((str "[" : Bytes), (none : Option Nat)),
            ((str "\x7b\n\"k\":1\n\x7d,\x7b\nzz" : Bytes), none)] : Reader).take k)).length < 3) ∧
      (preambleLoop []
          ([(str "[", none), (str "\x7b\n\"k\":1\n\x7d,\x7b\nzz", none)] : Reader)).2.1
        = (bytesOf (([((str "[" : Bytes), (none : Option Nat)),
            ((str "\x7b\n\"k\":1\n\x7d,\x7b\nzz" : Bytes), none)] : Reader).take n)).drop 3 ∧
      (decode ⟨[], true⟩
          ([(str "[", none), (str "\x7b\n\"k\":1\n\x7d,\x7b\nzz", none)] : Reader)).st.first
        = false ∧
      decode ⟨[], true⟩
          ([(str "[", none), (str "\x7b\n\"k\":1\n\x7d,\x7b\nzz", none)] : Reader)
        = decode ⟨(preambleLoop []
              ([(str "[", none), (str "\x7b\n\"k\":1\n\x7d,\x7b\nzz", none)] : Reader)).2.1,
            false⟩
            (preambleLoop []
              ([(str "[", none), (str "\x7b\n\"k\":1\n\x7d,\x7b\nzz", none)] : Reader)).2.2 :=
  ⟨by decide,
   decode_first_strips_preamble_once
     ([(str "[", none), (str "\x7b\n\"k\":1\n\x7d,\x7b\nzz", none)] : Reader) (by decide)⟩

/-- C9: a read that returns bytes together with a non-nil error makes
`decode` return that error immediately, with the returned bytes
discarded — the decoder state (buffer and preamble flag) is exactly
what it was before the call, in the preamble phase and in the
record-extraction phase alike (`decode` checks `err != nil` before
appending `b[:n]`). -/
theorem decode_read_error_discards_bytes
    (st : DecoderState) (bs : Bytes) (e : Nat) (rest : Reader) :
    decode st ((bs, some e) :: rest) = ⟨.error (.readE e), st, rest⟩ := by
  obtain ⟨buf, fst⟩ := st
  cases fst with
  | true => rfl
  | false => rfl

/-- The record loop fails with a compaction error only after having
accumulated every byte it read, with the buffer never advanced past
the split: the final buffer is the old buffer plus all bytes read. -/
theorem recordLoop_compactErr_spec : ∀ (rdr : Reader) (buf : Bytes),
    (recordLoop buf rdr).res = .error .compactE →
    ∃ n, 0 < n ∧ n ≤ rdr.length ∧
      (recordLoop buf rdr).rdr = rdr.drop n ∧
      (recordLoop buf rdr).buf = buf ++ bytesOf (rdr.take n) ∧
      1 < (splitSep (buf ++ bytesOf (rdr.take n))).length ∧
      compactFrags ((splitSep (buf ++ bytesOf (rdr.take n))).dropLast)
        = .error .compactE := by
  intro rdr
  induction rdr with
  | nil =>
    intro buf h
    rw [show (recordLoop buf []).res = .error (.readE 0) from rfl] at h
    injection h with h1
    exact absurd h1 (by simp)
  | cons c rest ih =>
    intro buf h
    obtain ⟨bs, oe⟩ := c
    cases oe with
    | some e =>
      rw [show (recordLoop buf ((bs, some e) :: rest)).res
          = .error (.readE e) from rfl] at h
      injection h with h1
      exact absurd h1 (by simp)
    | none =>
      by_cases h1 : (splitSep (buf ++ bs)).length ≤ 1
      · rw [recordLoop_skip rest h1] at h
        obtain ⟨n, hn0, hnle, hrdr, hbuf, hsp, hcf⟩ := ih (buf ++ bs) h
        refine ⟨n + 1, Nat.succ_pos n, by simpa using hnle, ?_, ?_, ?_, ?_⟩
        · rw [recordLoop_skip rest h1]; simpa using hrdr
        · rw [recordLoop_skip rest h1]
          simpa [bytesOf, catList, List.append_assoc] using hbuf
        · simpa [bytesOf, catList, List.append_assoc] using hsp
        · simpa [bytesOf, catList, List.append_assoc] using hcf
      · cases hc : compactFrags (splitSep (buf ++ bs)).dropLast with
        | error er =>
          have her : er = .compactE := compactFrags_error_eq hc
          subst her
          have heq : recordLoop buf ((bs, none) :: rest)
              = ⟨.error .compactE, buf ++ bs, rest⟩ := by
            simp [recordLoop, if_neg h1, hc]
          refine ⟨1, Nat.one_pos, by simp, ?_, ?_, ?_, ?_⟩
          · rw [heq]; rfl
          · rw [heq]; simp [bytesOf, catList]
          · simpa [bytesOf, catList] using Nat.lt_of_not_le h1
          · simpa [bytesOf, catList] using hc
        | ok ents' =>
          have : (recordLoop buf ((bs, none) :: rest)).res = .ok ents' := by
            simp [recordLoop, if_neg h1, hc]
          rw [this] at h
          exact absurd h (by simp)

/-- C10: when a decode call (past the preamble) fails because a
fragment cannot be compacted, the accumulation buffer has not been
advanced: at the error return it holds the old buffer plus every byte
read during the call — the whole current split, including the
fragments already converted to records in the same call (whose records
are discarded with the error), since `buf = e[len(e)-1]` only runs
after all fragments compact. -/
theorem decode_compact_error_keeps_buffer
    (st : DecoderState) (rdr : Reader)
    (hf : st.first = false) (h : (decode st rdr).res = .error .compactE) :
    ∃ n, 0 < n ∧ n ≤ rdr.length ∧
      (decode st rdr).rdr = rdr.drop n ∧
      (decode st rdr).st.buf = st.buf ++ bytesOf (rdr.take n) ∧
      1 < (splitSep (st.buf ++ bytesOf (rdr.take n))).length ∧
      compactFrags ((splitSep (st.buf ++ bytesOf (rdr.take n))).dropLast)
        = .error .compactE := by
  obtain ⟨buf, fst⟩ := st
  have hf' : fst = false := hf
  subst hf'
  rw [decode_false_eq] at h ⊢
  exact recordLoop_compactErr_spec rdr buf h

/-- C10 witness: the compaction-failure theorem at a stream whose first
fragment `!` wraps to the invalid JSON `{!}`. -/
theorem decode_compact_error_keeps_buffer_witness :
    (decode ⟨[], false⟩ [(str "!\n\x7d,\x7b\nz", none)]).res = .error .compactE ∧
    ∃ n, 0 < n ∧ n ≤ ([((str "!\n\x7d,\x7b\nz" : Bytes), (none : Option Nat))] : Reader).length ∧
      (decode ⟨[], false⟩ [(str "!\n\x7d,\x7b\nz", none)]).rdr
        = ([((str "!\n\x7d,\x7b\nz" : Bytes), (none : Option Nat))] : Reader).drop n ∧
      (decode ⟨[], false⟩ [(str "!\n\x7d,\x7b\nz", none)]).st.buf
        = [] ++ bytesOf (([((str "!\n\x7d,\x7b\nz" : Bytes), (none : Option Nat))] : Reader).take n) ∧
      1 < (splitSep ([] ++ bytesOf
          (([((str "!\n\x7d,\x7b\nz" : Bytes), (none : Option Nat))] : Reader).take n))).length ∧
      compactFrags ((splitSep ([] ++ bytesOf
          (([((str "!\n\x7d,\x7b\nz" : Bytes), (none : Option Nat))] : Reader).take n))).dropLast)
        = .error .compactE :=
  ⟨by decide,
   decode_compact_error_keeps_buffer ⟨[], false⟩ [(str "!\n\x7d,\x7b\nz", none)]
     rfl (by decide)⟩

end MacOSLog
